import Mathlib

/-!
# Verification of the RAG_TEAM ingestion / retrieval / quiz pipeline

A shallow embedding of the core algorithms of the repository:
* `core_processing.py` — chunk post-processing (drop-short + merge pass),
* `quiz_module/question_generator.py` — JSON parsing, quality validation,
  truth scheduling and the bounded-retry generation loop,
* `quiz_module/evaluator.py` — answer resolution and grading,
* `rag_service.py` — ensemble retrieval fusion, pool deduplication and
  smart context selection.

Python text is modelled as `List Char` (a Python `str` is a sequence of
code points); `str.strip()` becomes an explicit `trimC`.  External effects
(the LLM, the random shuffle, the dense/sparse indices) are supplied as
oracle inputs to the embedded functions.
-/

namespace RagTeam

/-- Python's whitespace test on a single character (`str.isspace` over the
characters relevant here; `Char.isWhitespace` covers space, tab, newline,
carriage return, matching `str.strip()`'s default on the texts involved). -/
def isWS (c : Char) : Bool := c.isWhitespace

/-- Left trim: `str.lstrip()`. -/
def trimL (l : List Char) : List Char := l.dropWhile isWS

/-- Right trim: `str.rstrip()`. -/
def trimR (l : List Char) : List Char := (l.reverse.dropWhile isWS).reverse

/-- Full trim: `str.strip()`. -/
def trimC (l : List Char) : List Char := trimR (trimL l)

/-- Substring containment, Python's `needle in text`. -/
def containsSub (needle : List Char) : List Char → Bool
  | [] => needle.isEmpty
  | c :: rest => needle.isPrefixOf (c :: rest) || containsSub needle rest

/-! ## core_processing.py : post_process_chunks / should_merge_with_next -/

/-- A text chunk as handled by `post_process_chunks`: its page content and
the two metadata fields the pass reads/writes (`page_type`, defaulting to
`"content"`, and `is_special_page`). -/
structure Chunk where
  content : List Char
  page_type : String := "content"
  is_special_page : Bool := false
  deriving DecidableEq, Repr

/-- `should_merge_with_next(current_content, next_content)`: the current
chunk's (stripped) tail indicates syntactic incompleteness. -/
def shouldMergeWithNext (currentContent nextContent : List Char) : Bool :=
  let stripped := trimC currentContent
  -- re.search(r'[=+\-*/]$', current.strip())
  (match stripped.getLast? with
   | some c => c = '=' || c = '+' || c = '-' || c = '*' || c = '/'
   | none => false) ||
  -- re.search(r'[，；,;]$', current.strip())
  (match stripped.getLast? with
   | some c => c = '，' || c = '；' || c = ',' || c = ';'
   | none => false) ||
  -- '【证明' in current and '证毕' not in current, next not starting with '【'
  (containsSub "【证明".toList currentContent &&
   !containsSub "证毕".toList currentContent &&
   !(match (trimC nextContent).head? with
     | some c => c = '【'
     | none => false)) ||
  -- re.search(r'[（([]$', current.strip())
  (match stripped.getLast? with
   | some c => c = '（' || c = '(' || c = '['
   | none => false)

/-- The metadata update `current_chunk.metadata['is_special_page'] = True`
applied when the page type is not `content`. -/
def tagSpecial (c : Chunk) : Chunk :=
  if c.page_type ≠ "content" then { c with is_special_page := true } else c

/-- `post_process_chunks(chunks)`: a single forward pass that drops chunks
whose stripped content is shorter than 100 characters, tags non-content
chunks `is_special_page`, and merges a content chunk with its (content)
successor when `should_merge_with_next` fires, consuming the successor
(`skip_next`).  The Python loop binds `content = current.strip()` once;
here `trimC c.content` is written at each use site. -/
def post_process_chunks : List Chunk → List Chunk
  | [] => []
  | c :: rest =>
    if (trimC c.content).length < 100 then
      post_process_chunks rest
    else
      match rest with
      | [] => [tagSpecial c]
      | next :: rest2 =>
        if c.page_type = "content" && next.page_type = "content" &&
            shouldMergeWithNext (trimC c.content) next.content then
          { tagSpecial c with content := trimC c.content ++ '\n' :: next.content }
            :: post_process_chunks rest2
        else
          tagSpecial c :: post_process_chunks (next :: rest2)

/-! ### Trim lemmas -/

theorem trimC_eq (l : List Char) :
    trimC l = List.rdropWhile isWS (List.dropWhile isWS l) := rfl

theorem length_dropWhile_le {α : Type} (p : α → Bool) (l : List α) :
    (l.dropWhile p).length ≤ l.length :=
  (List.dropWhile_suffix p).sublist.length_le

theorem length_dropWhile_append {α : Type} (p : α → Bool) (a b : List α) :
    (b.dropWhile p).length ≤ ((a ++ b).dropWhile p).length := by
  induction a with
  | nil => simp
  | cons x a ih =>
    rw [List.cons_append, List.dropWhile_cons]
    by_cases hx : p x = true
    · rw [if_pos hx]
      exact ih
    · rw [if_neg hx]
      have := length_dropWhile_le p b
      simp only [List.length_cons, List.length_append]
      omega

theorem dropWhile_eq_self_of_pre {α : Type} (p : α → Bool) {v u : List α}
    (hvu : v <+: u) (hu : u.dropWhile p = u) : v.dropWhile p = v := by
  cases v with
  | nil => rfl
  | cons x v' =>
    obtain ⟨t, ht⟩ := hvu
    subst ht
    rw [List.cons_append, List.dropWhile_cons] at hu
    rw [List.dropWhile_cons]
    by_cases hx : p x = true
    · exfalso
      rw [if_pos hx] at hu
      have := length_dropWhile_le p (v' ++ t)
      rw [hu] at this
      simp only [List.length_cons] at this
      omega
    · rw [if_neg hx]

theorem trimL_trimC (l : List Char) : (trimC l).dropWhile isWS = trimC l := by
  rw [trimC_eq]
  exact dropWhile_eq_self_of_pre isWS ( List.rdropWhile_prefix isWS _)
    (List.dropWhile_idempotent isWS l)

theorem trimR_trimC (l : List Char) : List.rdropWhile isWS (trimC l) = trimC l := by
  rw [trimC_eq]
  exact List.rdropWhile_idempotent isWS _

theorem trimC_idem (l : List Char) : trimC (trimC l) = trimC l := by
  rw [trimC_eq (trimC l), trimL_trimC, trimR_trimC]

theorem trimC_head_not_ws {l : List Char} {c : Char} {t : List Char}
    (h : trimC l = c :: t) : isWS c = false := by
  have h1 := trimL_trimC l
  rw [h, List.dropWhile_cons] at h1
  by_cases hc : isWS c = true
  · exfalso
    rw [if_pos hc] at h1
    have := length_dropWhile_le isWS t
    rw [h1] at this
    simp only [List.length_cons] at this
    omega
  · simpa using hc

/-- Appending anything to an already-trimmed text and trimming again never
shrinks below the trimmed prefix's length (the trailing trim stops at the
prefix's last non-whitespace character). -/
theorem length_trimC_append (s m : List Char) (hs : trimC s = s) :
    s.length ≤ (trimC (s ++ m)).length := by
  rcases s with _ | ⟨c, t⟩
  · simp
  · have hcw : isWS c = false := trimC_head_not_ws hs
    have h1 : ((c :: t) ++ m).dropWhile isWS = (c :: t) ++ m := by
      rw [List.cons_append, List.dropWhile_cons, hcw]
      simp
    rw [trimC_eq, h1]
    have h2 : List.rdropWhile isWS (c :: t) = c :: t := by
      have := trimR_trimC (c :: t)
      rwa [hs] at this
    have h4 : ((c :: t).reverse.dropWhile isWS).length = (c :: t).length := by
      have : (List.rdropWhile isWS (c :: t)).length = (c :: t).length := by rw [h2]
      simpa [List.rdropWhile] using this
    have h3 := length_dropWhile_append isWS m.reverse (c :: t).reverse
    simp only [List.rdropWhile, List.length_reverse, List.reverse_append]
    omega

theorem tagSpecial_content (c : Chunk) : (tagSpecial c).content = c.content := by
  rw [tagSpecial]
  split <;> rfl

/-- C1: every chunk returned by `post_process_chunks` has trimmed content of
length at least 100 — short chunks are dropped, and merging a content chunk
with its successor preserves the bound. -/
theorem post_process_chunks_min_length (chunks : List Chunk) (c : Chunk)
    (hc : c ∈ post_process_chunks chunks) :
    100 ≤ (trimC c.content).length := by
  induction chunks using post_process_chunks.induct with
  | case1 => simp [post_process_chunks] at hc
  | case2 c0 rest2 hshort ih =>
    rw [post_process_chunks.eq_def] at hc
    simp only [hshort, if_true] at hc
    exact ih hc
  | case3 c0 hlong =>
    rw [post_process_chunks.eq_def] at hc
    simp only [hlong, if_false] at hc
    simp only [List.mem_singleton] at hc
    subst hc
    rw [tagSpecial_content]
    omega
  | case4 c0 hlong next rest2 hmerge ih =>
    rw [post_process_chunks.eq_def] at hc
    simp only [hlong, if_false, hmerge, if_true] at hc
    rcases List.mem_cons.mp hc with hc | hc
    · subst hc
      have hidem := trimC_idem c0.content
      have := length_trimC_append (trimC c0.content) ('\n' :: next.content) hidem
      simp only at this ⊢
      omega
    · exact ih hc
  | case5 c0 hlong next rest2 hmerge ih =>
    rw [post_process_chunks.eq_def] at hc
    simp only [hlong, if_false, hmerge, Bool.false_eq_true, if_true] at hc
    rcases List.mem_cons.mp hc with hc | hc
    · subst hc
      rw [tagSpecial_content]
      omega
    · exact ih hc

/-- A concrete 120-character chunk used to witness the C1 theorem. -/
def wchunkC1 : Chunk := { content := List.replicate 120 'a' }

set_option maxRecDepth 8000 in
/-- Witness for C1 at a concrete input. -/
theorem post_process_chunks_min_length_witness :
    wchunkC1 ∈ post_process_chunks [wchunkC1] ∧
    100 ≤ (trimC wchunkC1.content).length :=
  ⟨by decide, post_process_chunks_min_length [wchunkC1] wchunkC1 (by decide)⟩

/-! ## quiz_module/question_generator.py

The LLM reply, after `json.loads`, is a JSON value; `_parse_llm_json_output`'s
string-scanning (`find("{")`/`rfind("}")`) and `json.loads` belong to the
external bracket-extraction layer, so the embedded parser starts from the
decoded value. -/

/-- A decoded JSON value (Python object after `json.loads`).  Numbers are
modelled as integers: no claim involves fractional JSON numbers, and
`isinstance(idx, int)` rejects floats anyway. -/
inductive JVal where
  | jnull
  | jbool (b : Bool)
  | jnum (n : Int)
  | jstr (s : String)
  | jarr (xs : List JVal)
  | jobj (fields : List (String × JVal))

/-- Python truthiness (`not data.get("valid", True)`). -/
def jTruthy : JVal → Bool
  | .jnull => false
  | .jbool b => b
  | .jnum n => n ≠ 0
  | .jstr s => !s.isEmpty
  | .jarr xs => !xs.isEmpty
  | .jobj fs => !fs.isEmpty

/-- `dict.get(k, d)`. -/
def jGet (fields : List (String × JVal)) (k : String) (d : JVal) : JVal :=
  match fields.find? (fun p => p.1 == k) with
  | some p => p.2
  | none => d

/-- Python `str(v)` as used on parsed JSON fields; the textual repr of
composite values is abstracted (no claim depends on it). -/
def pyStr : JVal → String
  | .jnull => "None"
  | .jbool true => "True"
  | .jbool false => "False"
  | .jnum n => toString n
  | .jstr s => s
  | .jarr _ => "<list>"
  | .jobj _ => "<dict>"

/-- `v == "s"` in Python, for a JSON value against a string literal. -/
def jEqStr (j : JVal) (s : String) : Bool :=
  match j with
  | .jstr t => t == s
  | _ => false

/-- `isinstance(v, int)` extraction; Python `bool` is a subtype of `int`. -/
def asPyInt : JVal → Option Int
  | .jnum n => some n
  | .jbool b => some (if b then 1 else 0)
  | _ => none

/-- `str.strip()` on Lean strings. -/
def trimS (s : String) : String := String.mk (trimC s.toList)

/-- Python `needle in text` on Lean strings. -/
def containsStr (needle text : String) : Bool :=
  containsSub needle.toList text.toList

/-- The head-match of `re.sub(r"^[A-DＡ-Ｄ]\s*[\.．、]\s*", "", text)`:
an ASCII or fullwidth option letter, optional whitespace, a dot-like
separator, optional whitespace. -/
def stripOptHead (cs : List Char) : List Char :=
  match cs with
  | [] => []
  | c :: rest =>
    if ('A' ≤ c ∧ c ≤ 'D') ∨ ('Ａ' ≤ c ∧ c ≤ 'Ｄ') then
      match rest.dropWhile isWS with
      | d :: rest2 =>
        if d = '.' ∨ d = '．' ∨ d = '、' then rest2.dropWhile isWS else cs
      | [] => cs
    else cs

/-- `_clean_opt(opt)`: `str(opt).strip()`, strip the option-letter head,
strip again. -/
def cleanOpt (j : JVal) : String :=
  trimS (String.mk (stripOptHead (trimS (pyStr j)).toList))

/-- The validated output of `_parse_llm_json_output`: the question dict the
function returns on success.  `correct_answer_index` is stored as the
parsed non-negative index. -/
structure ParsedQuestion where
  question : String
  qtype : JVal
  options : List String
  correct_answer_index : Nat
  explanation : String

/-- The dict-shaped part of `_parse_llm_json_output` (lines 187-223): unwrap
a singleton list, require a dict, bail out on a falsy `"valid"`, require a
list of at least 2 options and an in-range integer `correct_answer_index`. -/
def parseDict (data : JVal) : Option ParsedQuestion :=
  match data with
  | .jobj fields =>
    if !jTruthy (jGet fields "valid" (.jbool true)) then none
    else
      match jGet fields "options" (.jarr []) with
      | .jarr opts =>
        if opts.length < 2 then none
        else
          match asPyInt (jGet fields "correct_answer_index" .jnull) with
          | some idx =>
            if 0 ≤ idx ∧ idx < (opts.length : Int) then
              some { question := trimS (pyStr (jGet fields "question" (.jstr "")))
                     qtype := jGet fields "type" (.jstr "choice")
                     options := opts.map cleanOpt
                     correct_answer_index := idx.toNat
                     explanation := trimS (pyStr (jGet fields "explanation" (.jstr ""))) }
            else none
          | none => none
      | _ => none
  | _ => none

/-- `_parse_llm_json_output` on the decoded JSON value: a non-empty list is
replaced by its first element, then parsed as a dict. -/
def parseFields : JVal → Option ParsedQuestion
  | .jarr [] => none
  | .jarr (x :: _) => parseDict x
  | d => parseDict d

/-- The fixed stem blacklist of `_validate_question_quality`. -/
def semanticBlacklist : List String :=
  ["MNIST", "CIFAR", "ImageNet", "实验", "实验结果", "准确率达到", "多少%", "具体数值"]

/-- `re.match(r"^[\d\.\%]+$", str(o).strip())`: the stripped option consists
only of digits, dots and percent signs (and is non-empty). -/
def isNumericOpt (s : String) : Bool :=
  let t := trimS s
  !t.isEmpty && t.toList.all (fun c => c.isDigit || c = '.' || c = '%')

/-- `_validate_question_quality(question)`: stem length ≥ 8, no blacklisted
term in the stem, and for `choice` questions at least 2 options of which
fewer than 3 are purely numeric. -/
def validateQuestionQuality (q : ParsedQuestion) : Bool :=
  if q.question.length < 8 then false
  else if semanticBlacklist.any (fun w => containsStr w q.question) then false
  else if jEqStr q.qtype "choice" then
    if q.options.length < 2 then false
    else if 3 ≤ (q.options.filter isNumericOpt).length then false
    else true
  else true

/-- One generation attempt's external nondeterminism: the decoded LLM reply
(`none` models a `chat_completion` exception or an unextractable reply) and
the in-place `random.shuffle` applied on acceptance of a choice question. -/
structure Attempt where
  resp : Option JVal
  shuf : List String → List String

/-- The acceptance block of `_generate_batch` (lines 356-370): validate
quality; for a `choice`-typed question shuffle the options and relocate
`correct_answer_index` to the shuffled position of the originally-correct
option text. -/
def acceptIfValid (a : Attempt) (q : ParsedQuestion) : Option ParsedQuestion :=
  if validateQuestionQuality q then
    if jEqStr q.qtype "choice" then
      if q.correct_answer_index < q.options.length then
        let correctOpt := q.options.getD q.correct_answer_index ""
        let shuffled := a.shuf q.options
        some { q with options := shuffled
                      correct_answer_index := shuffled.indexOf correctOpt }
      else some q
    else some q
  else none

/-- The expected `correct_answer_index` for a scheduled truth value:
`0 if target_truth == "true" else 1`. -/
def expectedIdx (targetTruth : String) : Nat :=
  if targetTruth = "true" then 0 else 1

/-- The `target_truth` assignment at the start of each attempt: for a
`boolean` request with a (truthy) non-empty schedule and fewer accepted
questions than schedule entries, the schedule entry at
`len(batch_questions)`. -/
def targetTruthOf (qType : String) (sched : Option (List String))
    (nAccepted : Nat) : Option String :=
  match sched with
  | some ts =>
    if qType = "boolean" ∧ ts ≠ [] ∧ nAccepted < ts.length then
      some (ts.getD nAccepted "")
    else none
  | none => none

/-- One iteration body of `_generate_batch`'s while loop: compute the
scheduled target truth, parse the reply, enforce the truth schedule for
boolean requests, then validate/accept.  `nAccepted` is
`len(batch_questions)` at the start of the iteration. -/
def processAttempt (a : Attempt) (qType : String) (sched : Option (List String))
    (nAccepted : Nat) : Option ParsedQuestion :=
  match a.resp with
  | none => none
  | some j =>
    match parseFields j with
    | none => none
    | some parsed =>
      match targetTruthOf qType sched nAccepted with
      | some t =>
        if parsed.correct_answer_index ≠ expectedIdx t then none
        else acceptIfValid a parsed
      | none => acceptIfValid a parsed

/-- `_generate_batch`'s while loop: stop once `targetCount` questions are
collected or the fuel (remaining attempt budget) is exhausted; each
iteration consumes one attempt.  Returns the collected questions and the
number of attempts performed. -/
def genLoopAux (stream : Nat → Attempt) (qType : String)
    (sched : Option (List String)) (targetCount : Nat) :
    Nat → Nat → List ParsedQuestion → List ParsedQuestion × Nat
  | attemptIdx, 0, acc => (acc, attemptIdx)
  | attemptIdx, fuel + 1, acc =>
    if targetCount ≤ acc.length then (acc, attemptIdx)
    else
      match processAttempt (stream attemptIdx) qType sched acc.length with
      | some q =>
        genLoopAux stream qType sched targetCount (attemptIdx + 1) fuel (acc ++ [q])
      | none =>
        genLoopAux stream qType sched targetCount (attemptIdx + 1) fuel acc

/-- `_generate_batch(target_count, q_type, truth_schedule)` with its attempt
budget `target_count * 6`, also reporting the attempts performed. -/
def generateBatchFull (stream : Nat → Attempt) (targetCount : Nat) (qType : String)
    (sched : Option (List String)) : List ParsedQuestion × Nat :=
  genLoopAux stream qType sched targetCount 0 (targetCount * 6) []

/-- The question list returned by `_generate_batch`. -/
def generateBatch (stream : Nat → Attempt) (targetCount : Nat) (qType : String)
    (sched : Option (List String)) : List ParsedQuestion :=
  (generateBatchFull stream targetCount qType sched).1

/-- The pre-shuffle truth schedule of `generate_quiz_questions`:
`num_false = max(1, num_boolean // 2)` entries `"false"` followed by
`num_boolean - num_false` entries `"true"` (then shuffled once). -/
def truthSchedulePre (numBoolean : Nat) : List String :=
  List.replicate (max 1 (numBoolean / 2)) "false" ++
  List.replicate (numBoolean - max 1 (numBoolean / 2)) "true"

/-! ### Loop lemmas -/

theorem genLoopAux_snd_le (stream : Nat → Attempt) (qType : String)
    (sched : Option (List String)) (n : Nat) :
    ∀ fuel i acc, (genLoopAux stream qType sched n i fuel acc).2 ≤ i + fuel := by
  intro fuel
  induction fuel with
  | zero => intro i acc; simp [genLoopAux]
  | succ f ih =>
    intro i acc
    rw [genLoopAux]
    by_cases h : n ≤ acc.length
    · rw [if_pos h]
      simp
    · rw [if_neg h]
      cases hpa : processAttempt (stream i) qType sched acc.length with
      | some q =>
        dsimp only
        have := ih (i + 1) (acc ++ [q])
        omega
      | none =>
        dsimp only
        have := ih (i + 1) acc
        omega

theorem genLoopAux_len_le (stream : Nat → Attempt) (qType : String)
    (sched : Option (List String)) (n : Nat) :
    ∀ fuel i acc, acc.length ≤ n →
      ((genLoopAux stream qType sched n i fuel acc).1).length ≤ n := by
  intro fuel
  induction fuel with
  | zero => intro i acc hacc; simpa [genLoopAux] using hacc
  | succ f ih =>
    intro i acc hacc
    rw [genLoopAux]
    by_cases h : n ≤ acc.length
    · rw [if_pos h]
      simpa using hacc
    · rw [if_neg h]
      cases hpa : processAttempt (stream i) qType sched acc.length with
      | some q =>
        exact ih (i + 1) (acc ++ [q]) (by simp; omega)
      | none =>
        exact ih (i + 1) acc hacc

theorem genLoopAux_quota_or_exhaust (stream : Nat → Attempt) (qType : String)
    (sched : Option (List String)) (n : Nat) :
    ∀ fuel i acc, acc.length ≤ n →
      ((genLoopAux stream qType sched n i fuel acc).1).length = n ∨
        (genLoopAux stream qType sched n i fuel acc).2 = i + fuel := by
  intro fuel
  induction fuel with
  | zero => intro i acc _; right; simp [genLoopAux]
  | succ f ih =>
    intro i acc hacc
    rw [genLoopAux]
    by_cases h : n ≤ acc.length
    · rw [if_pos h]
      left
      dsimp only
      omega
    · rw [if_neg h]
      cases hpa : processAttempt (stream i) qType sched acc.length with
      | some q =>
        dsimp only
        rcases ih (i + 1) (acc ++ [q]) (by simp; omega) with hq | he
        · left; exact hq
        · right; omega
      | none =>
        dsimp only
        rcases ih (i + 1) acc hacc with hq | he
        · left; exact hq
        · right; omega

/-- C7: the generation loop performs at most `n * 6` attempts, never collects
more than `n` questions, stops exactly when the quota is met or the budget is
exhausted (returning the partial list collected so far), and a failed attempt
consumes exactly one attempt and continues the loop. -/
theorem generate_batch_budget_and_termination (stream : Nat → Attempt)
    (n : Nat) (qType : String) (sched : Option (List String)) (hn : 1 ≤ n) :
    (generateBatchFull stream n qType sched).2 ≤ n * 6 ∧
    (generateBatch stream n qType sched).length ≤ n ∧
    ((generateBatch stream n qType sched).length = n ∨
      (generateBatchFull stream n qType sched).2 = n * 6) ∧
    (∀ i fuel acc, acc.length < n →
      processAttempt (stream i) qType sched acc.length = none →
      genLoopAux stream qType sched n i (fuel + 1) acc =
        genLoopAux stream qType sched n (i + 1) fuel acc) := by
  refine ⟨?_, ?_, ?_, ?_⟩
  · have := genLoopAux_snd_le stream qType sched n (n * 6) 0 []
    simpa [generateBatchFull] using this
  · exact genLoopAux_len_le stream qType sched n (n * 6) 0 [] (by simp)
  · have := genLoopAux_quota_or_exhaust stream qType sched n (n * 6) 0 [] (by simp)
    simpa [generateBatch, generateBatchFull] using this
  · intro i fuel acc hlen hpa
    rw [genLoopAux, if_neg (by omega), hpa]

/-- Witness for C7 at a concrete input: a stream that always fails. -/
theorem generate_batch_budget_witness :
    1 ≤ 2 ∧
    ((generateBatchFull (fun _ => ⟨none, id⟩) 2 "choice" none).2 ≤ 2 * 6 ∧
    (generateBatch (fun _ => ⟨none, id⟩) 2 "choice" none).length ≤ 2 ∧
    ((generateBatch (fun _ => ⟨none, id⟩) 2 "choice" none).length = 2 ∨
      (generateBatchFull (fun _ => ⟨none, id⟩) 2 "choice" none).2 = 2 * 6) ∧
    (∀ i fuel acc, acc.length < 2 →
      processAttempt ((fun _ => (⟨none, id⟩ : Attempt)) i) "choice" none acc.length = none →
      genLoopAux (fun _ => ⟨none, id⟩) "choice" none 2 i (fuel + 1) acc =
        genLoopAux (fun _ => ⟨none, id⟩) "choice" none 2 (i + 1) fuel acc)) :=
  ⟨by decide,
   generate_batch_budget_and_termination (fun _ => ⟨none, id⟩) 2 "choice" none (by decide)⟩

/-! ### Shuffle relocation (C3) -/

/-- C3: when a choice question is accepted, the shuffle is an in-place
permutation of the options and `correct_answer_index` is relocated via
`opts.index(correct_opt)`; the option stored at the post-shuffle index
equals the pre-shuffle correct option text. -/
theorem choice_shuffle_roundtrip (a : Attempt) (q q' : ParsedQuestion)
    (hperm : List.Perm (a.shuf q.options) q.options)
    (hty : jEqStr q.qtype "choice" = true)
    (hidx : q.correct_answer_index < q.options.length)
    (hacc : acceptIfValid a q = some q') :
    q'.options[q'.correct_answer_index]? =
      some (q.options.getD q.correct_answer_index "") := by
  rw [acceptIfValid] at hacc
  by_cases hv : validateQuestionQuality q = true
  · rw [if_pos hv, if_pos hty, if_pos hidx] at hacc
    injection hacc with hacc
    subst hacc
    have hmem : q.options.getD q.correct_answer_index "" ∈ q.options := by
      rw [List.getD_eq_getElem q.options "" hidx]
      exact List.getElem_mem hidx
    have hmem' : q.options.getD q.correct_answer_index "" ∈ a.shuf q.options :=
      (hperm.mem_iff).mpr hmem
    have hlt : (a.shuf q.options).indexOf (q.options.getD q.correct_answer_index "") <
        (a.shuf q.options).length := List.indexOf_lt_length.mpr hmem'
    dsimp only
    rw [List.getElem?_eq_getElem hlt, List.getElem_indexOf hlt]
  · rw [if_neg hv] at hacc
    exact absurd hacc (by simp)

/-- A concrete accepted choice question for the C3 witness. -/
def qC3 : ParsedQuestion :=
  { question := "aaaaaaaa", qtype := .jstr "choice",
    options := ["x", "y", "z", "w"], correct_answer_index := 1, explanation := "" }

/-- The C3 witness attempt: the shuffle reverses the options. -/
def aC3 : Attempt := ⟨none, List.reverse⟩

/-- The post-shuffle question of the C3 witness. -/
def qC3' : ParsedQuestion :=
  { question := "aaaaaaaa", qtype := .jstr "choice",
    options := ["w", "z", "y", "x"], correct_answer_index := 2, explanation := "" }

/-- Witness for C3 at a concrete input. -/
theorem choice_shuffle_roundtrip_witness :
    List.Perm (aC3.shuf qC3.options) qC3.options ∧
    jEqStr qC3.qtype "choice" = true ∧
    qC3.correct_answer_index < qC3.options.length ∧
    acceptIfValid aC3 qC3 = some qC3' ∧
    qC3'.options[qC3'.correct_answer_index]? =
      some (qC3.options.getD qC3.correct_answer_index "") :=
  ⟨List.reverse_perm qC3.options, by decide, by decide, rfl,
   choice_shuffle_roundtrip aC3 qC3 qC3'
     (List.reverse_perm qC3.options) (by decide) (by decide) rfl⟩

/-! ### Structural bounds of accepted questions (C5) -/

theorem parseDict_bounds {j : JVal} {pq : ParsedQuestion}
    (h : parseDict j = some pq) :
    2 ≤ pq.options.length ∧ pq.correct_answer_index < pq.options.length := by
  cases j with
  | jobj fields =>
    rw [parseDict] at h
    by_cases hval : (!jTruthy (jGet fields "valid" (.jbool true))) = true
    · rw [if_pos hval] at h
      exact absurd h (by simp)
    · rw [if_neg hval] at h
      cases hopts : jGet fields "options" (.jarr []) with
      | jarr opts =>
        rw [hopts] at h
        dsimp only at h
        by_cases hlen : opts.length < 2
        · rw [if_pos hlen] at h
          exact absurd h (by simp)
        · rw [if_neg hlen] at h
          cases hint : asPyInt (jGet fields "correct_answer_index" .jnull) with
          | some idx =>
            rw [hint] at h
            dsimp only at h
            by_cases hrange : 0 ≤ idx ∧ idx < (opts.length : Int)
            · rw [if_pos hrange] at h
              injection h with h
              subst h
              obtain ⟨h0, h1⟩ := hrange
              simp only [List.length_map]
              omega
            · rw [if_neg hrange] at h
              exact absurd h (by simp)
          | none =>
            rw [hint] at h
            exact absurd h (by simp)
      | jnull => rw [hopts] at h; exact absurd h (by simp)
      | jbool b => rw [hopts] at h; exact absurd h (by simp)
      | jnum n => rw [hopts] at h; exact absurd h (by simp)
      | jstr s => rw [hopts] at h; exact absurd h (by simp)
      | jobj fs => rw [hopts] at h; exact absurd h (by simp)
  | jnull => exact absurd h (by simp [parseDict])
  | jbool b => exact absurd h (by simp [parseDict])
  | jnum n => exact absurd h (by simp [parseDict])
  | jstr s => exact absurd h (by simp [parseDict])
  | jarr xs => exact absurd h (by simp [parseDict])

theorem parseFields_bounds {j : JVal} {pq : ParsedQuestion}
    (h : parseFields j = some pq) :
    2 ≤ pq.options.length ∧ pq.correct_answer_index < pq.options.length := by
  cases j with
  | jarr xs =>
    cases xs with
    | nil => exact absurd h (by simp [parseFields])
    | cons x rest => exact parseDict_bounds (show parseDict x = some pq from h)
  | jnull => exact parseDict_bounds (show parseDict JVal.jnull = some pq from h)
  | jbool b => exact parseDict_bounds (show parseDict (JVal.jbool b) = some pq from h)
  | jnum n => exact parseDict_bounds (show parseDict (JVal.jnum n) = some pq from h)
  | jstr s => exact parseDict_bounds (show parseDict (JVal.jstr s) = some pq from h)
  | jobj fields => exact parseDict_bounds (show parseDict (JVal.jobj fields) = some pq from h)

theorem acceptIfValid_bounds {a : Attempt} {q q' : ParsedQuestion}
    (hshuf : ∀ l : List String, List.Perm (a.shuf l) l)
    (hb : 2 ≤ q.options.length ∧ q.correct_answer_index < q.options.length)
    (h : acceptIfValid a q = some q') :
    2 ≤ q'.options.length ∧ q'.correct_answer_index < q'.options.length := by
  rw [acceptIfValid] at h
  by_cases hv : validateQuestionQuality q = true
  · rw [if_pos hv] at h
    by_cases hty : jEqStr q.qtype "choice" = true
    · rw [if_pos hty] at h
      by_cases hidx : q.correct_answer_index < q.options.length
      · rw [if_pos hidx] at h
        injection h with h
        subst h
        have hlen : (a.shuf q.options).length = q.options.length :=
          (hshuf q.options).length_eq
        have hmem : q.options.getD q.correct_answer_index "" ∈ q.options := by
          rw [List.getD_eq_getElem q.options "" hidx]
          exact List.getElem_mem hidx
        have hmem' : q.options.getD q.correct_answer_index "" ∈ a.shuf q.options :=
          ((hshuf q.options).mem_iff).mpr hmem
        have hlt := List.indexOf_lt_length.mpr hmem'
        dsimp only
        omega
      · rw [if_neg hidx] at h
        injection h with h
        subst h
        exact hb
    · rw [if_neg hty] at h
      injection h with h
      subst h
      exact hb
  · rw [if_neg hv] at h
    exact absurd h (by simp)

theorem processAttempt_bounds {a : Attempt} {qType : String}
    {sched : Option (List String)} {m : Nat} {q : ParsedQuestion}
    (hshuf : ∀ l : List String, List.Perm (a.shuf l) l)
    (h : processAttempt a qType sched m = some q) :
    2 ≤ q.options.length ∧ q.correct_answer_index < q.options.length := by
  rw [processAttempt.eq_def] at h
  cases ha : a.resp with
  | none => rw [ha] at h; exact absurd h (by simp)
  | some j =>
    rw [ha] at h
    dsimp only at h
    cases hp : parseFields j with
    | none => rw [hp] at h; exact absurd h (by simp)
    | some parsed =>
      rw [hp] at h
      dsimp only at h
      have hpb := parseFields_bounds hp
      cases ht : targetTruthOf qType sched m with
      | some t =>
        rw [ht] at h
        dsimp only at h
        by_cases hne : parsed.correct_answer_index ≠ expectedIdx t
        · rw [if_pos hne] at h
          exact absurd h (by simp)
        · rw [if_neg hne] at h
          exact acceptIfValid_bounds hshuf hpb h
      | none =>
        rw [ht] at h
        exact acceptIfValid_bounds hshuf hpb h

theorem genLoopAux_mem_bounds (stream : Nat → Attempt) (qType : String)
    (sched : Option (List String)) (n : Nat)
    (hshuf : ∀ i (l : List String), List.Perm ((stream i).shuf l) l) :
    ∀ fuel i acc,
      (∀ q ∈ acc, 2 ≤ q.options.length ∧ q.correct_answer_index < q.options.length) →
      ∀ q ∈ (genLoopAux stream qType sched n i fuel acc).1,
        2 ≤ q.options.length ∧ q.correct_answer_index < q.options.length := by
  intro fuel
  induction fuel with
  | zero => intro i acc hacc; simpa [genLoopAux] using hacc
  | succ f ih =>
    intro i acc hacc
    rw [genLoopAux]
    by_cases h : n ≤ acc.length
    · rw [if_pos h]
      simpa using hacc
    · rw [if_neg h]
      cases hpa : processAttempt (stream i) qType sched acc.length with
      | some q0 =>
        dsimp only
        refine ih (i + 1) (acc ++ [q0]) ?_
        intro q hq
        rcases List.mem_append.mp hq with hq | hq
        · exact hacc q hq
        · rw [List.mem_singleton] at hq
          subst hq
          exact processAttempt_bounds (hshuf i) hpa
      | none =>
        dsimp only
        exact ih (i + 1) acc hacc

/-- C5 (amended): every question returned by the generation loop has at
least 2 options and an in-range `correct_answer_index`; the "exactly 4
options for choice / exactly the boolean pair" shape is requested from the
LLM in the prompt but not enforced by parsing or validation. -/
theorem generated_question_bounds (stream : Nat → Attempt) (n : Nat)
    (qType : String) (sched : Option (List String))
    (hshuf : ∀ i (l : List String), List.Perm ((stream i).shuf l) l) :
    ∀ q ∈ generateBatch stream n qType sched,
      2 ≤ q.options.length ∧ q.correct_answer_index < q.options.length :=
  genLoopAux_mem_bounds stream qType sched n hshuf (n * 6) 0 [] (by simp)

/-- The decoded LLM reply of the C5 counterexample: a `choice` question with
only 3 options, which passes `_parse_llm_json_output` (only `len ≥ 2` is
checked) and `_validate_question_quality`. -/
def jvC5 : JVal :=
  .jobj [("valid", .jbool true), ("question", .jstr "aaaaaaaa"),
         ("type", .jstr "choice"),
         ("options", .jarr [.jstr "x", .jstr "y", .jstr "z"]),
         ("correct_answer_index", .jnum 1), ("explanation", .jstr "e")]

/-- The C5 counterexample stream: every attempt returns `jvC5`, the shuffle
leaves the options in place. -/
def stC5 : Nat → Attempt := fun _ => ⟨some jvC5, id⟩

/-- Counterexample to C5 as stated: the generation loop accepts and returns
a `choice`-typed question with 3 options, not exactly 4. -/
theorem generated_question_three_options :
    ((generateBatch stC5 1 "choice" none).map
        (fun q => (jEqStr q.qtype "choice", q.options.length))) = [(true, 3)] ∧
    (3 : Nat) ≠ 4 := by
  constructor
  · rfl
  · decide

/-- Witness for the amended C5 theorem at a concrete input. -/
theorem generated_question_bounds_witness :
    (∀ i (l : List String), List.Perm ((stC5 i).shuf l) l) ∧
    (∀ q ∈ generateBatch stC5 1 "choice" none,
      2 ≤ q.options.length ∧ q.correct_answer_index < q.options.length) :=
  ⟨fun _ l => List.Perm.refl l,
   generated_question_bounds stC5 1 "choice" none (fun _ l => List.Perm.refl l)⟩

/-! ### Truth schedule (C2) -/

theorem truthSchedulePre_count (n : Nat) :
    (truthSchedulePre n).count "false" = max 1 (n / 2) ∧
    (truthSchedulePre n).count "true" = n - max 1 (n / 2) := by
  constructor <;>
    simp [truthSchedulePre, List.count_append, List.count_replicate]

theorem acceptIfValid_not_choice {a : Attempt} {q q' : ParsedQuestion}
    (hty : jEqStr q.qtype "choice" = false)
    (h : acceptIfValid a q = some q') : q' = q := by
  rw [acceptIfValid] at h
  by_cases hv : validateQuestionQuality q = true
  · rw [if_pos hv] at h
    rw [if_neg (by simp [hty])] at h
    injection h with h
    exact h.symm
  · rw [if_neg hv] at h
    exact absurd h (by simp)

theorem genLoopAux_truth_conformance (stream : Nat → Attempt) (ts : List String)
    (n : Nat)
    (hstream : ∀ i j parsed, (stream i).resp = some j → parseFields j = some parsed →
        jEqStr parsed.qtype "choice" = false)
    (hn : n ≤ ts.length) :
    ∀ fuel i acc,
      (∀ k q, acc[k]? = some q →
        q.correct_answer_index = expectedIdx (ts.getD k "")) →
      ∀ k q, ((genLoopAux stream "boolean" (some ts) n i fuel acc).1)[k]? = some q →
        q.correct_answer_index = expectedIdx (ts.getD k "") := by
  intro fuel
  induction fuel with
  | zero => intro i acc hinv; simpa [genLoopAux] using hinv
  | succ f ih =>
    intro i acc hinv
    rw [genLoopAux]
    by_cases h : n ≤ acc.length
    · rw [if_pos h]
      simpa using hinv
    · rw [if_neg h]
      cases hpa : processAttempt (stream i) "boolean" (some ts) acc.length with
      | none =>
        dsimp only
        exact ih (i + 1) acc hinv
      | some q0 =>
        dsimp only
        have hq0idx : q0.correct_answer_index = expectedIdx (ts.getD acc.length "") := by
          rw [processAttempt.eq_def] at hpa
          cases ha : (stream i).resp with
          | none => rw [ha] at hpa; exact absurd hpa (by simp)
          | some j =>
            rw [ha] at hpa
            dsimp only at hpa
            cases hp : parseFields j with
            | none => rw [hp] at hpa; exact absurd hpa (by simp)
            | some parsed =>
              rw [hp] at hpa
              dsimp only at hpa
              have hcond1 : ts ≠ [] := List.length_pos.mp (by omega)
              have hcond2 : acc.length < ts.length := by omega
              have htt : targetTruthOf "boolean" (some ts) acc.length =
                  some (ts.getD acc.length "") := by
                simp only [targetTruthOf]
                rw [if_pos ⟨trivial, hcond1, hcond2⟩]
              rw [htt] at hpa
              dsimp only at hpa
              by_cases hidx :
                  parsed.correct_answer_index ≠ expectedIdx (ts.getD acc.length "")
              · rw [if_pos hidx] at hpa
                exact absurd hpa (by simp)
              · rw [if_neg hidx] at hpa
                have hq0 : q0 = parsed :=
                  acceptIfValid_not_choice (hstream i j parsed ha hp) hpa
                rw [hq0]
                omega
        refine ih (i + 1) (acc ++ [q0]) ?_
        intro k q hk
        rcases lt_trichotomy k acc.length with hlt | heq | hgt
        · rw [List.getElem?_append_left hlt] at hk
          exact hinv k q hk
        · subst heq
          rw [List.getElem?_concat_length] at hk
          injection hk with hk
          subst hk
          exact hq0idx
        · rw [List.getElem?_append_right (by omega)] at hk
          rw [List.getElem?_eq_none (by simp; omega)] at hk
          exact absurd hk (by simp)

/-- C2 (amended): the pre-shuffle truth schedule holds `max 1 (n / 2)`
entries `"false"` and the rest `"true"` — for odd `n ≥ 3` the extra item is
rounded to `true`, while the single item of a 1-question request is `false`;
any shuffle of the 4-question schedule holds exactly 2 `"false"` and 2
`"true"`; and when every parsed reply of the boolean batch is (as prompted)
not `choice`-typed, every accepted question's `correct_answer_index` equals
the scheduled expected index (0 for a `"true"` target, 1 for a `"false"`
target), mismatching attempts being discarded. -/
theorem truth_schedule_amended (n : Nat) (hn : 1 ≤ n) :
    ((truthSchedulePre n).count "false" = max 1 (n / 2) ∧
     (truthSchedulePre n).count "true" = n - max 1 (n / 2)) ∧
    (∀ s : List String, List.Perm s (truthSchedulePre 4) →
       s.count "false" = 2 ∧ s.count "true" = 2) ∧
    (∀ (stream : Nat → Attempt) (ts : List String),
       ts.length = n →
       (∀ i j parsed, (stream i).resp = some j → parseFields j = some parsed →
          jEqStr parsed.qtype "choice" = false) →
       ∀ k q, (generateBatch stream n "boolean" (some ts))[k]? = some q →
         q.correct_answer_index = expectedIdx (ts.getD k "")) := by
  refine ⟨truthSchedulePre_count n, ?_, ?_⟩
  · intro s hs
    have h4 := truthSchedulePre_count 4
    constructor
    · rw [hs.count_eq]
      simpa using h4.1
    · rw [hs.count_eq]
      simpa using h4.2
  · intro stream ts hts hstream k q hk
    exact genLoopAux_truth_conformance stream ts n hstream (le_of_eq hts.symm)
      (n * 6) 0 [] (by simp) k q hk

/-- The decoded reply of the C2 counterexample's boolean batch: a
`choice`-typed statement whose parsed index matches the scheduled truth. -/
def jvC2 : JVal :=
  .jobj [("valid", .jbool true), ("question", .jstr "aaaaaaaa"),
         ("type", .jstr "choice"),
         ("options", .jarr [.jstr "x", .jstr "y"]),
         ("correct_answer_index", .jnum 0), ("explanation", .jstr "e")]

/-- The C2 counterexample stream: every attempt returns `jvC2` and the
shuffle reverses the options. -/
def stC2 : Nat → Attempt := fun _ => ⟨some jvC2, List.reverse⟩

/-- Counterexample to C2 as stated: (i) for a 3-question boolean request the
pre-shuffle schedule holds 1 `"false"` (the extra item is rounded to
`true`), not the 2 the claim's rounding rule predicts; (ii) an accepted
attempt of a boolean batch can end up with `correct_answer_index = 1` while
the scheduled expected index is 0, when the reply is `choice`-typed and the
acceptance shuffle relocates the index. -/
theorem truth_schedule_counterexample :
    ((truthSchedulePre 3).count "false" = 1 ∧
     ¬ (truthSchedulePre 3).count "false" = 2) ∧
    (((generateBatch stC2 1 "boolean" (some ["true"])).map
        (fun q => q.correct_answer_index)) = [1] ∧
     expectedIdx "true" = 0 ∧ (1 : Nat) ≠ 0) := by
  refine ⟨⟨by decide, by decide⟩, ⟨rfl, by decide, by decide⟩⟩

/-- Witness for the amended C2 theorem at the concrete count 4. -/
theorem truth_schedule_amended_witness :
    1 ≤ 4 ∧
    (((truthSchedulePre 4).count "false" = max 1 (4 / 2) ∧
      (truthSchedulePre 4).count "true" = 4 - max 1 (4 / 2)) ∧
    (∀ s : List String, List.Perm s (truthSchedulePre 4) →
       s.count "false" = 2 ∧ s.count "true" = 2) ∧
    (∀ (stream : Nat → Attempt) (ts : List String),
       ts.length = 4 →
       (∀ i j parsed, (stream i).resp = some j → parseFields j = some parsed →
          jEqStr parsed.qtype "choice" = false) →
       ∀ k q, (generateBatch stream 4 "boolean" (some ts))[k]? = some q →
         q.correct_answer_index = expectedIdx (ts.getD k ""))) :=
  ⟨by decide, truth_schedule_amended 4 (by decide)⟩

/-! ## quiz_module/evaluator.py -/

/-- The head-match of `re.sub(r'^[A-D]\.\s*', '', option)`: an uppercase
ASCII option letter, an immediate dot, optional whitespace. -/
def stripEvalHead : List Char → List Char
  | c :: d :: rest =>
    if ('A' ≤ c ∧ c ≤ 'D') ∧ d = '.' then rest.dropWhile isWS
    else c :: d :: rest
  | l => l

/-- `_clean_option_text(option)`: strip the `"A."`-style head, then
`strip()`. -/
def cleanOptionText (s : String) : String :=
  String.mk (trimC (stripEvalHead s.toList))

/-- A question as read by the grader. -/
structure QuizQuestion where
  question : String
  qtype : String
  options : List String
  correct_answer_index : Nat
  explanation : String
  deriving DecidableEq, Repr

/-- Resolution of one submitted answer to an option index (−1 means
unanswered): `None`/empty string → −1; first exact `options.index` match;
else the first option whose cleaned text equals the cleaned answer; else −1
(lines 39-67 of `grade_quiz`). -/
def resolveAnswer (options : List String) (ans : Option String) : Int :=
  match ans with
  | none => -1
  | some s =>
    if s = "" then -1
    else
      match options.findIdx? (fun opt => opt == s) with
      | some i => (i : Int)
      | none =>
        match options.findIdx? (fun opt => cleanOptionText opt == cleanOptionText s) with
        | some i => (i : Int)
        | none => -1

/-- One entry of `calculate_score`'s `results` list (the fields the claims
read). -/
structure GradedItem where
  user_answer : Int
  correct_answer : Nat
  is_correct : Bool
  is_unanswered : Bool
  deriving DecidableEq, Repr

/-- One row of `calculate_score`: `is_correct = (resolved == correct) and
resolved != -1`, `is_unanswered = (resolved == -1)`. -/
def gradeItem (q : QuizQuestion) (resolved : Int) : GradedItem :=
  { user_answer := resolved
    correct_answer := q.correct_answer_index
    is_correct := (resolved == (q.correct_answer_index : Int)) && (resolved != -1)
    is_unanswered := resolved == -1 }

/-- The grading report (the aggregate fields the claims read). -/
structure GradeReport where
  total : Nat
  correct : Nat
  wrong : Nat
  unanswered : Nat
  results : List GradedItem
  deriving DecidableEq, Repr

/-- `grade_quiz(questions, user_answers_list)`: a hard `ValueError` when the
two lists differ in length (before any resolution or scoring), otherwise
answer resolution followed by `calculate_score`. -/
def grade_quiz (questions : List QuizQuestion) (answers : List (Option String)) :
    Except String GradeReport :=
  if questions.length ≠ answers.length then
    Except.error "题目数量与答案数量不匹配"
  else
    let resolved := (questions.zip answers).map (fun p => resolveAnswer p.1.options p.2)
    let results := (questions.zip resolved).map (fun p => gradeItem p.1 p.2)
    Except.ok
      { total := questions.length
        correct := results.countP (fun r => r.is_correct)
        wrong := results.countP (fun r => !r.is_correct && r.user_answer != -1)
        unanswered := results.countP (fun r => r.is_unanswered)
        results := results }

/-- C9: length mismatch is a hard input-validation error raised before any
grading, and grading proceeds exactly when the lengths agree. -/
theorem grade_quiz_length_check (questions : List QuizQuestion)
    (answers : List (Option String)) :
    (questions.length ≠ answers.length →
      grade_quiz questions answers = Except.error "题目数量与答案数量不匹配") ∧
    (questions.length = answers.length →
      ∃ r : GradeReport, grade_quiz questions answers = Except.ok r ∧
        r.total = questions.length) := by
  constructor
  · intro hne
    rw [grade_quiz, if_pos hne]
  · intro heq
    rw [grade_quiz, if_neg (by omega)]
    exact ⟨_, rfl, rfl⟩

/-- The four-option question of the grader claims. -/
def qC4 : QuizQuestion :=
  { question := "q", qtype := "choice", options := ["A", "B", "C", "D"],
    correct_answer_index := 2, explanation := "" }

/-- Witness for C9 at concrete inputs. -/
theorem grade_quiz_length_check_witness :
    ([qC4].length ≠ ([] : List (Option String)).length ∧
      grade_quiz [qC4] [] = Except.error "题目数量与答案数量不匹配") ∧
    (([] : List QuizQuestion).length = ([] : List (Option String)).length ∧
      ∃ r : GradeReport, grade_quiz [] [] = Except.ok r ∧
        r.total = ([] : List QuizQuestion).length) :=
  ⟨⟨by decide, (grade_quiz_length_check [qC4] []).1 (by decide)⟩,
   ⟨rfl, (grade_quiz_length_check [] []).2 rfl⟩⟩

/-- Counterexample to C4 as stated: the prefix-stripping regex
`^[A-D]\.\s*` covers only uppercase letters, so the answer `"c. C"` does not
normalize to `"C"`; it matches no option and is graded unanswered, not
correct. -/
theorem grader_lowercase_answer_unanswered :
    ((grade_quiz [qC4] [some "c. C"]).map
        (fun r => r.results.map (fun it => (it.is_correct, it.is_unanswered))))
      = Except.ok [(false, true)] := rfl

/-- C4 (amended): for `options=["A","B","C","D"]`, `correct_index=2`:
answer `"C"` is exactly matched and correct; answer `"C. C"` (uppercase
prefix) is prefix-stripped and correct; answer `"c. C"` (lowercase prefix,
outside the `[A-D]` pattern) is unmatched and therefore unanswered; the
empty answer is unanswered and not correct. -/
theorem grader_exactness_amended :
    ((grade_quiz [qC4] [some "C"]).map
        (fun r => r.results.map (fun it => (it.is_correct, it.is_unanswered))))
      = Except.ok [(true, false)] ∧
    ((grade_quiz [qC4] [some "C. C"]).map
        (fun r => r.results.map (fun it => (it.is_correct, it.is_unanswered))))
      = Except.ok [(true, false)] ∧
    ((grade_quiz [qC4] [some "c. C"]).map
        (fun r => r.results.map (fun it => (it.is_correct, it.is_unanswered))))
      = Except.ok [(false, true)] ∧
    ((grade_quiz [qC4] [some ""]).map
        (fun r => r.results.map (fun it => (it.is_correct, it.is_unanswered))))
      = Except.ok [(false, true)] :=
  ⟨rfl, rfl, rfl, rfl⟩

/-! ## rag_service.py -/

/-- A retrieved document: its page content (the metadata plays no role in
the claims). -/
structure Doc where
  content : String
  deriving DecidableEq, Repr

/-- `str.strip()` on a `String`. -/
def stripS (s : String) : String := String.mk (trimC s.toList)

/-- First-seen deduplication keyed by `key`: keep a document only when
`req` holds of its key and the key was not emitted before.  `seen` is the
set of already-emitted keys.  Instantiated by `EnsembleRetriever.retrieve`
(key = stripped content, `req` = non-empty, the `unique` dict) and by
`retrieve_with_enhancements` (key = md5 of the raw content — md5 modelled
as an injective hash, i.e. the content itself —, `req` trivial, the
`seen_content` set). -/
def dedupKeyed (key : Doc → String) (req : String → Bool) :
    List Doc → List String → List Doc
  | [], _ => []
  | d :: rest, seen =>
    if req (key d) && !(seen.contains (key d)) then
      d :: dedupKeyed key req rest (key d :: seen)
    else
      dedupKeyed key req rest seen

/-- `EnsembleRetriever.retrieve(query)`: the dense results followed by the
sparse results (empty when no BM25 index was built), deduplicated by
stripped page content (dropping empty keys, first occurrence wins), then
truncated to the first `k`. -/
def ensembleRetrieve (k : Nat) (dense : List Doc) (sparse : Option (List Doc)) :
    List Doc :=
  (dedupKeyed (fun d => stripS d.content) (fun s => s != "")
    (dense ++ sparse.getD []) []).take k

/-- The expansion-level pool accumulation of `retrieve_with_enhancements`:
for each variant's retrieval result in order, append each document whose
content hash is unseen (`all_docs` / `seen_content`). -/
def retrievedPool (variantResults : List (List Doc)) : List Doc :=
  dedupKeyed (fun d => d.content) (fun _ => true) variantResults.flatten []

/-! ### Deduplication lemmas -/

theorem contains_cons_self (seen : List String) (s : String) :
    (s :: seen).contains s = true := by
  rw [List.contains_cons]
  simp

theorem contains_cons_of {seen : List String} (a : String) {s : String}
    (h : seen.contains s = true) : (a :: seen).contains s = true := by
  rw [List.contains_cons, h]
  simp

theorem contains_cons_false {seen : List String} {a s : String}
    (hseen : seen.contains s = false) (hne : a ≠ s) :
    (a :: seen).contains s = false := by
  rw [List.contains_cons, hseen, Bool.or_false]
  exact beq_eq_false_iff_ne.mpr (fun h => hne h.symm)

theorem contains_tail_false {seen : List String} {a s : String}
    (h : (a :: seen).contains s = false) :
    (s == a) = false ∧ seen.contains s = false := by
  rw [List.contains_cons] at h
  constructor
  · cases hc : (s == a) with
    | false => rfl
    | true => rw [hc] at h; simp at h
  · cases hc : seen.contains s with
    | false => rfl
    | true => rw [hc] at h; simp at h

theorem keep_cond_split {key : Doc → String} {req : String → Bool}
    {seen : List String} {d : Doc}
    (hkeep : (req (key d) && !(seen.contains (key d))) = true) :
    req (key d) = true ∧ seen.contains (key d) = false := by
  constructor
  · cases hr : req (key d) with
    | true => rfl
    | false => rw [hr] at hkeep; simp at hkeep
  · cases hc : seen.contains (key d) with
    | false => rfl
    | true => rw [hc] at hkeep; simp at hkeep

theorem dedupKeyed_count_seen (key : Doc → String) (req : String → Bool) :
    ∀ (l : List Doc) (seen : List String) (s : String),
      seen.contains s = true →
      (dedupKeyed key req l seen).countP (fun x => key x == s) = 0 := by
  intro l
  induction l with
  | nil => intro seen s _; simp [dedupKeyed]
  | cons d rest ih =>
    intro seen s hs
    rw [dedupKeyed]
    by_cases hkeep : (req (key d) && !(seen.contains (key d))) = true
    · rw [if_pos hkeep]
      have hne : (key d == s) = false := by
        have h2 := (keep_cond_split hkeep).2
        apply beq_eq_false_iff_ne.mpr
        intro hcontra
        rw [hcontra] at h2
        rw [h2] at hs
        exact absurd hs (by simp)
      rw [List.countP_cons]
      have h0 := ih (key d :: seen) s (contains_cons_of (key d) hs)
      simp [hne, h0]
    · rw [if_neg hkeep]
      exact ih seen s hs

theorem dedupKeyed_count_one (key : Doc → String) (req : String → Bool) :
    ∀ (l : List Doc) (seen : List String) (s : String),
      req s = true → seen.contains s = false →
      (∃ d ∈ l, key d = s) →
      (dedupKeyed key req l seen).countP (fun x => key x == s) = 1 := by
  intro l
  induction l with
  | nil => intro seen s _ _ hex; simp at hex
  | cons d rest ih =>
    intro seen s hreq hseen hex
    rw [dedupKeyed]
    by_cases hds : key d = s
    · have hkeep : (req (key d) && !(seen.contains (key d))) = true := by
        rw [hds, hreq, hseen]
        rfl
      rw [if_pos hkeep, List.countP_cons]
      have h0 := dedupKeyed_count_seen key req rest (key d :: seen) s
        (by rw [hds]; exact contains_cons_self seen s)
      rw [hds] at h0
      simp [hds, h0]
    · have hex' : ∃ x ∈ rest, key x = s := by
        rcases hex with ⟨x, hx, hxs⟩
        rcases List.mem_cons.mp hx with hx | hx
        · exact absurd (hx ▸ hxs) hds
        · exact ⟨x, hx, hxs⟩
      by_cases hkeep : (req (key d) && !(seen.contains (key d))) = true
      · rw [if_pos hkeep, List.countP_cons]
        have h1 := ih (key d :: seen) s hreq
          (contains_cons_false hseen hds) hex'
        have hne : (key d == s) = false := beq_eq_false_iff_ne.mpr hds
        simp [h1, hne]
      · rw [if_neg hkeep]
        exact ih seen s hreq hseen hex'

theorem dedupKeyed_find? (key : Doc → String) (req : String → Bool) :
    ∀ (l : List Doc) (seen : List String) (s : String),
      req s = true → seen.contains s = false →
      (dedupKeyed key req l seen).find? (fun x => key x == s) =
        l.find? (fun x => key x == s) := by
  intro l
  induction l with
  | nil => intro seen s _ _; simp [dedupKeyed]
  | cons d rest ih =>
    intro seen s hreq hseen
    rw [dedupKeyed]
    by_cases hds : key d = s
    · have hkeep : (req (key d) && !(seen.contains (key d))) = true := by
        rw [hds, hreq, hseen]
        rfl
      rw [if_pos hkeep]
      have hpos : ((fun x => key x == s) d) = true := by simp [hds]
      rw [@List.find?_cons_of_pos _ (fun x => key x == s) d
            (dedupKeyed key req rest (key d :: seen)) hpos,
          @List.find?_cons_of_pos _ (fun x => key x == s) d rest hpos]
    · have hne : ¬ ((fun x => key x == s) d = true) := by simp; exact hds
      rw [@List.find?_cons_of_neg _ (fun x => key x == s) d rest hne]
      by_cases hkeep : (req (key d) && !(seen.contains (key d))) = true
      · rw [if_pos hkeep]
        rw [@List.find?_cons_of_neg _ (fun x => key x == s) d
              (dedupKeyed key req rest (key d :: seen)) hne]
        exact ih (key d :: seen) s hreq (contains_cons_false hseen hds)
      · rw [if_neg hkeep]
        exact ih seen s hreq hseen

theorem dedupKeyed_sublist (key : Doc → String) (req : String → Bool) :
    ∀ (l : List Doc) (seen : List String),
      (dedupKeyed key req l seen).Sublist l := by
  intro l
  induction l with
  | nil => intro seen; simp [dedupKeyed]
  | cons d rest ih =>
    intro seen
    rw [dedupKeyed]
    by_cases hkeep : (req (key d) && !(seen.contains (key d))) = true
    · rw [if_pos hkeep]
      exact (ih (key d :: seen)).cons₂ d
    · rw [if_neg hkeep]
      exact (ih seen).cons d

theorem dedupKeyed_mem (key : Doc → String) (req : String → Bool) :
    ∀ (l : List Doc) (seen : List String) (d : Doc),
      d ∈ dedupKeyed key req l seen →
      req (key d) = true ∧ seen.contains (key d) = false := by
  intro l
  induction l with
  | nil => intro seen d hd; simp [dedupKeyed] at hd
  | cons x rest ih =>
    intro seen d hd
    rw [dedupKeyed] at hd
    by_cases hkeep : (req (key x) && !(seen.contains (key x))) = true
    · rw [if_pos hkeep] at hd
      rcases List.mem_cons.mp hd with hd | hd
      · subst hd
        exact keep_cond_split hkeep
      · have hm := ih (key x :: seen) d hd
        exact ⟨hm.1, (contains_tail_false hm.2).2⟩
    · rw [if_neg hkeep] at hd
      exact ih seen d hd

theorem dedupKeyed_pairwise (key : Doc → String) (req : String → Bool) :
    ∀ (l : List Doc) (seen : List String),
      List.Pairwise (fun a b => key a ≠ key b) (dedupKeyed key req l seen) := by
  intro l
  induction l with
  | nil => intro seen; simp [dedupKeyed]
  | cons d rest ih =>
    intro seen
    rw [dedupKeyed]
    by_cases hkeep : (req (key d) && !(seen.contains (key d))) = true
    · rw [if_pos hkeep]
      refine List.Pairwise.cons ?_ (ih (key d :: seen))
      intro b hb hcontra
      have hm := (dedupKeyed_mem key req rest (key d :: seen) b hb).2
      have := (contains_tail_false hm).1
      rw [hcontra] at this
      simp at this
    · rw [if_neg hkeep]
      exact ih seen

/-- C6 (amended): the expansion-level pool deduplicates by the md5 hash of
the RAW chunk content (md5 modelled as injective): for every document of
the concatenated variant results, the final pool holds exactly one document
with that exact content, namely the first-seen one in discovery order
across all variants and sources. -/
theorem retrieved_pool_dedup (variantResults : List (List Doc)) (d : Doc)
    (hd : d ∈ variantResults.flatten) :
    (retrievedPool variantResults).countP (fun x => x.content == d.content) = 1 ∧
    (retrievedPool variantResults).find? (fun x => x.content == d.content) =
      variantResults.flatten.find? (fun x => x.content == d.content) :=
  ⟨dedupKeyed_count_one (fun x => x.content) (fun _ => true)
      variantResults.flatten [] d.content rfl rfl ⟨d, hd, rfl⟩,
   dedupKeyed_find? (fun x => x.content) (fun _ => true)
      variantResults.flatten [] d.content rfl rfl⟩

/-- The two strip-equal but raw-distinct chunks of the C6 counterexample. -/
def dC6a : Doc := ⟨"abc "⟩

/-- See `dC6a`. -/
def dC6b : Doc := ⟨"abc"⟩

/-- Counterexample to C6 as stated: two expansion variants return chunks
whose contents agree after normalization (`strip`) but differ raw; the
`retrieve_with_enhancements` dedup hashes the raw content, so the final
pool keeps both copies instead of exactly one. -/
theorem retrieved_pool_not_normalized :
    retrievedPool [ensembleRetrieve 6 [dC6a] none, ensembleRetrieve 6 [dC6b] none] =
      [dC6a, dC6b] ∧
    stripS dC6a.content = stripS dC6b.content ∧
    dC6a.content ≠ dC6b.content ∧
    (retrievedPool [ensembleRetrieve 6 [dC6a] none,
        ensembleRetrieve 6 [dC6b] none]).countP
        (fun x => stripS x.content == stripS dC6a.content) = 2 ∧
    (2 : Nat) ≠ 1 := by
  refine ⟨rfl, rfl, by decide, rfl, by decide⟩

/-- Witness for the amended C6 theorem at a concrete input. -/
theorem retrieved_pool_dedup_witness :
    dC6b ∈ ([[dC6b], [dC6b]] : List (List Doc)).flatten ∧
    ((retrievedPool [[dC6b], [dC6b]]).countP
        (fun x => x.content == dC6b.content) = 1 ∧
     (retrievedPool [[dC6b], [dC6b]]).find? (fun x => x.content == dC6b.content) =
       ([[dC6b], [dC6b]] : List (List Doc)).flatten.find?
         (fun x => x.content == dC6b.content)) :=
  ⟨by decide, retrieved_pool_dedup [[dC6b], [dC6b]] dC6b (by decide)⟩

/-- C10: `EnsembleRetriever.retrieve` returns at most `k` documents: the
dense results followed by the sparse results are deduplicated by exact
stripped page content — first occurrence kept, empty stripped content
dropped — and the fused deduplicated pool is truncated to its first `k`
elements (so at most `k` chunks from one variant reach the expansion-level
pool even when both indices return `k` candidates each). -/
theorem ensemble_retrieve_at_most_k (k : Nat) (dense : List Doc)
    (sparse : Option (List Doc)) :
    (ensembleRetrieve k dense sparse).length ≤ k ∧
    (ensembleRetrieve k dense sparse).Sublist (dense ++ sparse.getD []) ∧
    List.Pairwise (fun a b => stripS a.content ≠ stripS b.content)
      (ensembleRetrieve k dense sparse) ∧
    (∀ d ∈ ensembleRetrieve k dense sparse, stripS d.content ≠ "") ∧
    (∀ d ∈ dense ++ sparse.getD [], stripS d.content ≠ "" →
      (dedupKeyed (fun x => stripS x.content) (fun s => s != "")
          (dense ++ sparse.getD []) []).find?
          (fun x => stripS x.content == stripS d.content) =
        (dense ++ sparse.getD []).find?
          (fun x => stripS x.content == stripS d.content)) := by
  refine ⟨?_, ?_, ?_, ?_, ?_⟩
  · rw [ensembleRetrieve, List.length_take]
    exact inf_le_left
  · exact (List.take_sublist _ _).trans
      (dedupKeyed_sublist (fun x => stripS x.content) (fun s => s != "") _ [])
  · exact List.Pairwise.sublist (List.take_sublist _ _)
      (dedupKeyed_pairwise (fun x => stripS x.content) (fun s => s != "") _ [])
  · intro d hd
    have hmem := dedupKeyed_mem (fun x => stripS x.content) (fun s => s != "")
      (dense ++ sparse.getD []) [] d ((List.take_sublist _ _).subset hd)
    intro hcon
    have h1 := hmem.1
    simp [hcon] at h1
  · intro d hd hne
    exact dedupKeyed_find? (fun x => stripS x.content) (fun s => s != "")
      (dense ++ sparse.getD []) [] (stripS d.content) (bne_iff_ne.mpr hne) rfl

/-- A document of the C10 witness. -/
def dW1 : Doc := { content := "x " }

/-- A document of the C10 witness. -/
def dW2 : Doc := { content := "y" }

/-- A document of the C10 witness. -/
def dW3 : Doc := { content := "x" }

/-- Witness for C10 at a concrete input: both indices return documents, one
duplicated under stripping, `k = 1`. -/
theorem ensemble_retrieve_at_most_k_witness :
    (ensembleRetrieve 1 [dW1, dW2] (some [dW3])).length ≤ 1 ∧
    (ensembleRetrieve 1 [dW1, dW2] (some [dW3])).Sublist
      ([dW1, dW2] ++ (some [dW3] : Option (List Doc)).getD []) ∧
    List.Pairwise (fun a b => stripS a.content ≠ stripS b.content)
      (ensembleRetrieve 1 [dW1, dW2] (some [dW3])) ∧
    (∀ d ∈ ensembleRetrieve 1 [dW1, dW2] (some [dW3]),
      stripS d.content ≠ "") ∧
    (∀ d ∈ [dW1, dW2] ++ (some [dW3] : Option (List Doc)).getD [],
      stripS d.content ≠ "" →
      (dedupKeyed (fun x => stripS x.content) (fun s => s != "")
          ([dW1, dW2] ++ (some [dW3] : Option (List Doc)).getD []) []).find?
          (fun x => stripS x.content == stripS d.content) =
        ([dW1, dW2] ++ (some [dW3] : Option (List Doc)).getD []).find?
          (fun x => stripS x.content == stripS d.content)) :=
  ensemble_retrieve_at_most_k 1 [dW1, dW2] (some [dW3])

/-! ### smart_context_selection (C8) -/

/-- `str.split()`: split on whitespace runs, discarding empty pieces.
`acc` holds the current word reversed. -/
def splitWSAux : List Char → List Char → List (List Char)
  | [], acc => if acc.isEmpty then [] else [acc.reverse]
  | c :: rest, acc =>
    if isWS c then
      if acc.isEmpty then splitWSAux rest [] else acc.reverse :: splitWSAux rest []
    else
      splitWSAux rest (c :: acc)

/-- `s.split()` on a `String`. -/
def splitWS (s : String) : List String :=
  (splitWSAux s.toList []).map String.mk

/-- `query_terms = set(query.lower().split())` followed by
`sum(1 for term in query_terms if term in content_lower)`: the number of
distinct query terms occurring in the lowercased content.
(`String.toLower` lowercases ASCII letters; the Unicode tables of Python's
`str.lower` are abstracted.) -/
def keywordScore (query : String) (content : String) : Nat :=
  ((splitWS query.toLower).dedup).countP (fun t => containsStr t content.toLower)

/-- The candidate score of `smart_context_selection`:
`keyword_score * 2 + min(len(content) / 1000, 2.0) + 1.0`, over ℚ. -/
def scoreQ (query : String) (d : Doc) : ℚ :=
  2 * (keywordScore query d.content : ℚ) +
    min ((d.content.length : ℚ) / 1000) 2 + 1

/-- The descending-by-score order on scored candidates. -/
def scoreGE (a b : ℚ × Doc) : Prop := b.1 ≤ a.1

/-- Stable descending insertion: the new element goes after every element
whose score is ≥ its own, so earlier-discovered equal-score candidates stay
first — the order Python's stable `sort(reverse=True)` produces. -/
def insertDesc (x : ℚ × Doc) : List (ℚ × Doc) → List (ℚ × Doc)
  | [] => [x]
  | y :: ys => if x.1 ≤ y.1 then y :: insertDesc x ys else x :: y :: ys

/-- The stable descending sort by score. -/
def sortScoredDesc (l : List (ℚ × Doc)) : List (ℚ × Doc) :=
  l.foldl (fun acc x => insertDesc x acc) []

/-- `smart_context_selection(docs, query, max_docs)`: the pool unchanged
when its size is within the requested maximum; otherwise score, sort
descending (stable), truncate. -/
def smart_context_selection (docs : List Doc) (query : String) (maxDocs : Nat) :
    List Doc :=
  if docs.length ≤ maxDocs then docs
  else
    ((sortScoredDesc (docs.map (fun d => (scoreQ query d, d)))).take maxDocs).map
      Prod.snd

theorem insertDesc_perm (x : ℚ × Doc) (l : List (ℚ × Doc)) :
    List.Perm (insertDesc x l) (x :: l) := by
  induction l with
  | nil => exact List.Perm.refl _
  | cons y ys ih =>
    rw [insertDesc]
    by_cases hxy : x.1 ≤ y.1
    · rw [if_pos hxy]
      exact List.Perm.trans (ih.cons y) (List.Perm.swap x y ys)
    · rw [if_neg hxy]

theorem insertDesc_sorted (x : ℚ × Doc) {l : List (ℚ × Doc)}
    (h : List.Pairwise scoreGE l) : List.Pairwise scoreGE (insertDesc x l) := by
  induction l with
  | nil => simp [insertDesc, List.pairwise_cons]
  | cons y ys ih =>
    rw [insertDesc]
    obtain ⟨hy, hys⟩ := List.pairwise_cons.mp h
    by_cases hxy : x.1 ≤ y.1
    · rw [if_pos hxy]
      refine List.pairwise_cons.mpr ⟨?_, ih hys⟩
      intro b hb
      have hb' : b ∈ x :: ys := (insertDesc_perm x ys).subset hb
      rcases List.mem_cons.mp hb' with rfl | hb''
      · exact hxy
      · exact hy b hb''
    · rw [if_neg hxy]
      refine List.pairwise_cons.mpr ⟨?_, h⟩
      intro b hb
      rcases List.mem_cons.mp hb with rfl | hb'
      · exact le_of_lt (lt_of_not_le hxy)
      · exact le_trans (hy b hb') (le_of_lt (lt_of_not_le hxy))

theorem insertDesc_filter_ne (x : ℚ × Doc) (l : List (ℚ × Doc))
    (p : ℚ × Doc → Bool) (hx : p x = false) :
    (insertDesc x l).filter p = l.filter p := by
  induction l with
  | nil => simp [insertDesc, hx]
  | cons y ys ih =>
    rw [insertDesc]
    by_cases hxy : x.1 ≤ y.1
    · rw [if_pos hxy, List.filter_cons, List.filter_cons]
      by_cases hpy : p y = true
      · rw [if_pos hpy, if_pos hpy, ih]
      · rw [if_neg hpy, if_neg hpy, ih]
    · rw [if_neg hxy, List.filter_cons, if_neg (by simp [hx])]

theorem insertDesc_filter_level (x : ℚ × Doc) {l : List (ℚ × Doc)}
    (h : List.Pairwise scoreGE l) :
    (insertDesc x l).filter (fun z => z.1 == x.1) =
      l.filter (fun z => z.1 == x.1) ++ [x] := by
  induction l with
  | nil => simp [insertDesc]
  | cons y ys ih =>
    rw [insertDesc]
    obtain ⟨hy, hys⟩ := List.pairwise_cons.mp h
    by_cases hxy : x.1 ≤ y.1
    · rw [if_pos hxy, List.filter_cons, List.filter_cons]
      by_cases hpy : ((fun z => z.1 == x.1) y) = true
      · rw [if_pos hpy, if_pos hpy, ih hys, List.cons_append]
      · rw [if_neg hpy, if_neg hpy, ih hys]
    · rw [if_neg hxy, List.filter_cons]
      rw [if_pos (by simp)]
      have hnil : (y :: ys).filter (fun z => z.1 == x.1) = [] := by
        rw [List.filter_eq_nil_iff]
        intro a ha
        have hle : a.1 ≤ y.1 := by
          rcases List.mem_cons.mp ha with rfl | ha'
          · exact le_refl _
          · exact hy a ha'
        have hlt : a.1 < x.1 := lt_of_le_of_lt hle (lt_of_not_le hxy)
        simp only [beq_iff_eq]
        exact fun hcontra => absurd hcontra (ne_of_lt hlt)
      rw [hnil]
      rfl

theorem sortFold_pairwise :
    ∀ (l acc : List (ℚ × Doc)), List.Pairwise scoreGE acc →
      List.Pairwise scoreGE (List.foldl (fun acc x => insertDesc x acc) acc l) := by
  intro l
  induction l with
  | nil => intro acc hacc; simpa using hacc
  | cons x l ih =>
    intro acc hacc
    rw [List.foldl_cons]
    exact ih (insertDesc x acc) (insertDesc_sorted x hacc)

theorem sortFold_perm :
    ∀ (l acc : List (ℚ × Doc)),
      List.Perm (List.foldl (fun acc x => insertDesc x acc) acc l) (acc ++ l) := by
  intro l
  induction l with
  | nil => intro acc; simp
  | cons x l ih =>
    intro acc
    rw [List.foldl_cons]
    refine List.Perm.trans (ih (insertDesc x acc)) ?_
    refine List.Perm.trans (List.Perm.append_right l (insertDesc_perm x acc)) ?_
    rw [List.cons_append]
    exact List.perm_middle.symm

theorem sortFold_filter :
    ∀ (l acc : List (ℚ × Doc)) (q : ℚ), List.Pairwise scoreGE acc →
      (List.foldl (fun acc x => insertDesc x acc) acc l).filter (fun z => z.1 == q) =
        acc.filter (fun z => z.1 == q) ++ l.filter (fun z => z.1 == q) := by
  intro l
  induction l with
  | nil => intro acc q hacc; simp
  | cons x l ih =>
    intro acc q hacc
    rw [List.foldl_cons, ih (insertDesc x acc) q (insertDesc_sorted x hacc)]
    by_cases hq : x.1 = q
    · subst hq
      rw [insertDesc_filter_level x hacc, List.filter_cons, if_pos (by simp)]
      rw [List.append_assoc]
      rfl
    · have hpx : ((fun z => z.1 == q) x) = false := by
        simp only [beq_eq_false_iff_ne]
        exact hq
      rw [insertDesc_filter_ne x acc _ hpx, List.filter_cons, if_neg (by simp [hq])]

/-- C8: the context ranker returns the pool unchanged when its size is at
most the requested maximum; otherwise it scores each candidate
`2 × (distinct query terms in chunk) + min(len(chunk)/1000, 2) + 1`, sorts
descending by score — stably: candidates of any fixed score keep their
discovery order —, and returns exactly the top `maxDocs` candidates. -/
theorem smart_context_selection_spec (docs : List Doc) (query : String)
    (maxDocs : Nat) :
    (docs.length ≤ maxDocs → smart_context_selection docs query maxDocs = docs) ∧
    (maxDocs < docs.length →
      smart_context_selection docs query maxDocs =
        ((sortScoredDesc (docs.map (fun d => (scoreQ query d, d)))).take maxDocs).map
          Prod.snd ∧
      (smart_context_selection docs query maxDocs).length = maxDocs ∧
      List.Pairwise scoreGE (sortScoredDesc (docs.map (fun d => (scoreQ query d, d)))) ∧
      List.Perm (sortScoredDesc (docs.map (fun d => (scoreQ query d, d))))
        (docs.map (fun d => (scoreQ query d, d))) ∧
      (∀ q : ℚ,
        (sortScoredDesc (docs.map (fun d => (scoreQ query d, d)))).filter
            (fun z => z.1 == q) =
          (docs.map (fun d => (scoreQ query d, d))).filter (fun z => z.1 == q))) := by
  constructor
  · intro hle
    rw [smart_context_selection, if_pos hle]
  · intro hgt
    have hperm : List.Perm (sortScoredDesc (docs.map (fun d => (scoreQ query d, d))))
        (docs.map (fun d => (scoreQ query d, d))) := by
      have := sortFold_perm (docs.map (fun d => (scoreQ query d, d))) []
      simpa [sortScoredDesc] using this
    refine ⟨?_, ?_, ?_, hperm, ?_⟩
    · rw [smart_context_selection, if_neg (by omega)]
    · rw [smart_context_selection, if_neg (by omega)]
      rw [List.length_map, List.length_take, hperm.length_eq, List.length_map]
      omega
    · exact sortFold_pairwise (docs.map (fun d => (scoreQ query d, d))) [] (by simp)
    · intro q
      have := sortFold_filter (docs.map (fun d => (scoreQ query d, d))) [] q (by simp)
      simpa [sortScoredDesc] using this

/-- Witness for C8 at concrete inputs: a two-document pool within the
maximum, and a three-document pool truncated to one. -/
theorem smart_context_selection_spec_witness :
    (([dW1, dW2] : List Doc).length ≤ 4 ∧
      smart_context_selection [dW1, dW2] "q" 4 = [dW1, dW2]) ∧
    ((1 : Nat) < ([dW1, dW2, dW3] : List Doc).length ∧
      (smart_context_selection [dW1, dW2, dW3] "q" 1 =
        ((sortScoredDesc ([dW1, dW2, dW3].map (fun d => (scoreQ "q" d, d)))).take 1).map
          Prod.snd ∧
      (smart_context_selection [dW1, dW2, dW3] "q" 1).length = 1 ∧
      List.Pairwise scoreGE
        (sortScoredDesc ([dW1, dW2, dW3].map (fun d => (scoreQ "q" d, d)))) ∧
      List.Perm (sortScoredDesc ([dW1, dW2, dW3].map (fun d => (scoreQ "q" d, d))))
        ([dW1, dW2, dW3].map (fun d => (scoreQ "q" d, d))) ∧
      (∀ q : ℚ,
        (sortScoredDesc ([dW1, dW2, dW3].map (fun d => (scoreQ "q" d, d)))).filter
            (fun z => z.1 == q) =
          ([dW1, dW2, dW3].map (fun d => (scoreQ "q" d, d))).filter
            (fun z => z.1 == q)))) :=
  ⟨⟨by decide, (smart_context_selection_spec [dW1, dW2] "q" 4).1 (by decide)⟩,
   ⟨by decide, (smart_context_selection_spec [dW1, dW2, dW3] "q" 1).2 (by decide)⟩⟩

end RagTeam
